import Mathlib

/-!
Verification development for the improve-ai tracker ingest-and-merge engine.

The definitions below are shallow embeddings of the Python sources:
  * src/ingest/partition.py            (RewardedDecisionPartition: merge, save/split, repair)
  * src/ingest_firehose/firehose_record.py  (FirehoseRecord parsing and RDR projection)
  * src/assign_rewards/join_rewards.py (worker file selection)

Conventions used throughout:
  * pandas cells that may be null/NaN are `Option` values;
  * identifiers (decision ids, reward message ids) are k-ids: KSUIDs, whose
    fixed-width base62 string form sorts lexicographically exactly as the
    underlying 160-bit value, so they are modelled as `Nat`;
  * JSON maps (the serialized `rewards` column) are association lists
    `List (Nat × Rat)`; Python floats are modelled as `Rat`;
  * `json_dumps` (canonical JSON with sorted keys, per spec section 4.1) is
    modelled at the value level by `canonicalize`, which sorts the map by key;
  * `pandas.DataFrame.sort_values` followed by `groupby(decision_id)` is
    modelled by enumerating the distinct decision ids in ascending order and
    aggregating, for each id, the rows carrying it in frame order (groupby
    emits groups in ascending key order and preserves intra-group frame
    order; sort_values is determinized as a stable sort, so the intra-group
    frame order is the incoming order).
-/

/-! ### Generic sorted, deduplicated insertion (used for key listings and groupby keys) -/

/-- Insert an element into a `<`-sorted duplicate-free list, keeping it sorted
and duplicate-free. -/
def insertSorted {α : Type} [LinearOrder α] (a : α) : List α → List α
  | [] => [a]
  | b :: bs =>
    if a < b then a :: b :: bs
    else if a = b then b :: bs
    else b :: insertSorted a bs

/-- The ascending list of distinct elements of `l`. -/
def sortDedup {α : Type} [LinearOrder α] (l : List α) : List α :=
  l.foldr insertSorted []

/-! ### The `rewards` JSON map and its merge (partition.py, `merge_rewards`) -/

/-- A (parsed) JSON map from reward message_id to reward value, as stored in
the `rewards` column.  Python floats are modelled as rationals. -/
abbrev RewardsMap : Type := List (Nat × Rat)

/-- Shallow union of two maps where `hi` has priority: the entries of `hi`
followed by the entries of `lo` whose key is absent from `hi`.  This is the
binary step of Python's `dict(ChainMap(...))`, in which the first mapping
containing a key supplies its value. -/
def mapUnion (hi lo : RewardsMap) : RewardsMap :=
  hi ++ lo.filter (fun p => (hi.lookup p.1).isNone)

/-- Model of `dict(ChainMap(*ms))`: the shallow merge of a list of maps where the
first map containing a key supplies its value. -/
def chainMerge (ms : List RewardsMap) : RewardsMap :=
  ms.foldr mapUnion []

/-- The ascending list of distinct keys of a map. -/
def canonKeys (m : RewardsMap) : List Nat :=
  sortDedup (m.map Prod.fst)

/-- Model of `json_dumps` of a Python dict, modelled at the value level: the entries
ordered by ascending key (canonical JSON sorts object keys), each key bound
to its value in the dict (the first binding, matching dict construction from
an association sequence as well as `List.lookup`). -/
def canonicalize (m : RewardsMap) : RewardsMap :=
  (canonKeys m).filterMap (fun k => (m.lookup k).map (fun v => (k, v)))

/-- Function `merge_rewards` (partition.py): drop the null cells, parse each present
map, shallow-merge them with `ChainMap` (first writer wins) and re-serialize
canonically. -/
def merge_rewards (cells : List (Option RewardsMap)) : RewardsMap :=
  canonicalize (chainMerge (cells.filterMap id))

/-- Numeric sum of the values of a map. -/
def sumValues (m : RewardsMap) : Rat :=
  (m.map Prod.snd).sum

/-- Function `sum_rewards` (partition.py): the sum of the values of the merged
`rewards` map. -/
def sum_rewards (cells : List (Option RewardsMap)) : Rat :=
  sumValues (merge_rewards cells)

/-- Function `get_first_cell` (partition.py): the first non-null cell of a column, or
null when every cell is null. -/
def get_first_cell {α : Type} (cells : List (Option α)) : Option α :=
  (cells.filterMap id).head?

/-! ### Rewarded decision records and `RewardedDecisionPartition.merge` -/

/-- A row of the rewarded-decision table (columns of `DF_SCHEMA`).  Null
cells are `none`.  JSON-typed columns store their canonical serialization,
modelled here by the parsed value (`variant`, `givens`, `sample` as opaque
strings, the `rewards` map as an association list). -/
structure RDR where
  decision_id : Nat
  timestamp : Option String
  variant : Option String
  givens : Option String
  count : Option Int
  runners_up : Option (List String)
  sample : Option String
  rewards : Option RewardsMap
  reward : Option Rat
deriving DecidableEq, Repr

/-- The aggregated output row for one `groupby("decision_id")` group `g`
(rows listed in frame order).  Every non-reward column is aggregated with
`get_first_cell`; `rewards` with `merge_rewards`; `reward` with
`sum_rewards`.  The `decision_id` column of the group is constantly `d`, so
its `get_first_cell` is `d` itself.  The `.astype` coercions of the source
do not change values and are omitted. -/
def agg_group (d : Nat) (g : List RDR) : RDR where
  decision_id := d
  timestamp := get_first_cell (g.map (·.timestamp))
  variant := get_first_cell (g.map (·.variant))
  givens := get_first_cell (g.map (·.givens))
  count := get_first_cell (g.map (·.count))
  runners_up := get_first_cell (g.map (·.runners_up))
  sample := get_first_cell (g.map (·.sample))
  rewards := some (merge_rewards (g.map (·.rewards)))
  reward := some (sum_rewards (g.map (·.rewards)))

/-- Method `RewardedDecisionPartition.merge`: `sort_values(decision_id)` followed by
`groupby("decision_id").agg(...)`.  groupby emits one row per distinct
decision_id, in ascending key order; each group holds the rows carrying that
id in frame order, which (determinizing `sort_values` as a stable sort)
is their incoming order. -/
def merge (rows : List RDR) : List RDR :=
  (sortDedup (rows.map (·.decision_id))).map
    (fun d => agg_group d (rows.filter (fun r => decide (r.decision_id = d))))

/-! ### `split` (partition.py): chunking the merged table for save -/

/-- Function `split_roughly_equal` (inner generator of `split`): slice `i` of `c` is
`df.iloc[i*k + min(i, m) : (i+1)*k + min(i+1, m)]` where `k, m = divmod(len(df), c)`. -/
def split_roughly_equal {α : Type} (l : List α) (c : Nat) : List (List α) :=
  (List.range c).map (fun i =>
    (l.drop (i * (l.length / c) + min i (l.length % c))).take
      ((i + 1) * (l.length / c) + min (i + 1) (l.length % c)
        - (i * (l.length / c) + min i (l.length % c))))

/-- Function `split` (partition.py): `chunk_count = ceil(len(df) / max_row_count)`
(`(n + m - 1) / m` is the Nat form of `math.ceil(n / m)`), then split into
roughly equal chunks. -/
def split {α : Type} (l : List α) (max_row_count : Nat) : List (List α) :=
  split_roughly_equal l ((l.length + max_row_count - 1) / max_row_count)

/-! ### Worker file selection (join_rewards.py, `identify_incoming_files_to_process`) -/

/-- Value of one hexadecimal digit, accepting both cases as Python's
`int(s, 16)` does. -/
def hex_digit_value (ch : Char) : Option Nat :=
  if '0' ≤ ch ∧ ch ≤ '9' then some (ch.toNat - '0'.toNat)
  else if 'a' ≤ ch ∧ ch ≤ 'f' then some (ch.toNat - 'a'.toNat + 10)
  else if 'A' ≤ ch ∧ ch ≤ 'F' then some (ch.toNat - 'A'.toNat + 10)
  else none

/-- Model of `int(f.name[:16], 16)`: the numeric value of the first 16 characters of
the file name read as hexadecimal.  `none` models the `ValueError` Python
raises when the prefix is empty or contains a non-hex character. -/
def leading_hex_value (name : String) : Option Nat :=
  let cs := name.toList.take 16
  if cs.isEmpty then none
  else cs.foldl (fun acc ch => match acc, hex_digit_value ch with
    | some a, some v => some (16 * a + v)
    | _, _ => none) (some 0)

/-- The file-selection test of `identify_incoming_files_to_process`: a file
is selected by node `node_id` of `node_count` iff the value of its leading
hex digits is congruent to `node_id` modulo `node_count`.  (In the source an
unparsable name raises and aborts the worker; here it is simply never
selected — the claim only concerns names with 16 leading hex characters.) -/
def selects_file (name : String) (node_id node_count : Nat) : Bool :=
  match leading_hex_value name with
  | some h => h % node_count == node_id
  | none => false

/-- Function `identify_incoming_files_to_process` (join_rewards.py): keep the input
files whose leading-hex value hashes to this node.  The `files` list stands
for the directory glob of `*.jsonl.gz` names. -/
def identify_incoming_files_to_process (files : List String)
    (node_id node_count : Nat) : List String :=
  files.filter (fun f => selects_file f node_id node_count)

/-! ### Overlap repair (partition.py, `get_all_overlaps`, `repair_overlapping_keys`)

A decision id (k-id) is a KSUID: 4 big-endian timestamp bytes followed by 16
random bytes, base62-encoded at fixed width, so the lexicographic order of
the encoded strings is the numeric order of the 160-bit values.  Ids are
modelled as that numeric value; the embedded second-resolution timestamp is
the top 32 bits.  A live partition is modelled by the list of decision ids
of its rows; under the local invariant the `<max_ts>-<min_ts>` fields of its
key encode exactly the timestamps of its extreme rows, which is how
`get_all_overlaps` reads them back with `key.split('/')[-1].split('-')[:2]`.
-/

/-- Timestamp embedded in a k-id: the top 32 bits of the 160-bit value. -/
def ksuid_timestamp (d : Nat) : Nat := d / 2 ^ 128

def list_min : List Nat → Nat
  | [] => 0
  | [a] => a
  | a :: b :: t => min a (list_min (b :: t))

def list_max : List Nat → Nat
  | [] => 0
  | [a] => a
  | a :: b :: t => max a (list_max (b :: t))

/-- The `min_ts` encoded in a partition's key (timestamp of its least row). -/
def part_lo (p : List Nat) : Nat := ksuid_timestamp (list_min p)

/-- The `max_ts` encoded in a partition's key (timestamp of its greatest row). -/
def part_hi (p : List Nat) : Nat := ksuid_timestamp (list_max p)

/-- Predicate `Interval.overlaps` on the closed intervals `P.closed(min_ts, max_ts)`
built by `get_all_overlaps`: two closed intervals intersect iff
`max(a.min, b.min) ≤ min(a.max, b.max)`. -/
def overlapsB (lo1 hi1 lo2 hi2 : Nat) : Bool :=
  decide (max lo1 lo2 ≤ min hi1 hi2)

/-- One element of the sweep in `get_all_overlaps`: an `IntervalDict`
mapping a closed interval (here its hull `[lo, hi]`) to the list of s3 keys
(here the partitions) merged into it. -/
structure OverlapAcc where
  lo : Nat
  hi : Nat
  parts : List (List Nat)
deriving DecidableEq, Repr

/-- The initial one-key `IntervalDict` of a partition key. -/
def accOf (p : List Nat) : OverlapAcc := ⟨part_lo p, part_hi p, [p]⟩

/-- The merging sweep of `get_all_overlaps`: pop the accumulated element,
and while its domain overlaps the next interval, `combine` them (domain
hull, concatenated key lists). -/
def sweepGo (cur : OverlapAcc) : List OverlapAcc → List OverlapAcc
  | [] => [cur]
  | nxt :: rest =>
    if overlapsB cur.lo cur.hi nxt.lo nxt.hi
    then sweepGo ⟨min cur.lo nxt.lo, max cur.hi nxt.hi, cur.parts ++ nxt.parts⟩ rest
    else cur :: sweepGo nxt rest

/-- Function `get_all_overlaps`: build one `IntervalDict` per key, sort them by the
lower bound of their domain, and sweep, merging overlapping neighbours. -/
def get_all_overlaps (parts : List (List Nat)) : List OverlapAcc :=
  match List.insertionSort (fun a b : OverlapAcc => a.lo ≤ b.lo) (parts.map accOf) with
  | [] => []
  | x :: rest => sweepGo x rest

/-- Function `repair_overlapping_keys`: with at most one listed key there is nothing
to fix; otherwise every overlap component of two or more keys is loaded,
concatenated, and processed — `RDP.process` sorts, merges (for bare decision
ids: sorted deduplication) and `split`s — and its original keys are deleted,
while single-key components stay in place.  The object store is modelled as
the list of live partitions (each the list of its rows' decision ids). -/
def repair_overlapping_keys (max_row_count : Nat) (parts : List (List Nat)) :
    List (List Nat) :=
  if parts.length ≤ 1 then parts
  else
    ((get_all_overlaps parts).map (fun comp =>
      if 2 ≤ comp.parts.length
      then split (sortDedup comp.parts.flatten) max_row_count
      else comp.parts)).flatten

/-- Whether a run of repair detects any overlapping keys (a component of two
or more keys), i.e. whether it would rewrite anything. -/
def hasOverlaps (parts : List (List Nat)) : Bool :=
  if parts.length ≤ 1 then false
  else (get_all_overlaps parts).any (fun comp => 2 ≤ comp.parts.length)

/-- Well-formedness of a sweep element: its domain is a genuine closed
interval that contains the key interval of each of its (non-empty)
partitions. -/
def AccWF (a : OverlapAcc) : Prop :=
  a.lo ≤ a.hi ∧ a.parts ≠ [] ∧
    ∀ p ∈ a.parts, p ≠ [] ∧ a.lo ≤ part_lo p ∧ part_hi p ≤ a.hi

instance : IsTotal OverlapAcc (fun a b => a.lo ≤ b.lo) :=
  ⟨fun a b => Nat.le_total a.lo b.lo⟩

instance : IsTrans OverlapAcc (fun a b => a.lo ≤ b.lo) :=
  ⟨fun _ _ _ => Nat.le_trans⟩

/-- The single partition that stands for an overlap component after repair:
the consolidated (sorted, deduplicated) file when the component had two or
more keys, and the untouched original key otherwise. -/
def repaired_part (comp : OverlapAcc) : List Nat :=
  if 2 ≤ comp.parts.length then sortDedup comp.parts.flatten
  else comp.parts.headD []

/-! ### `RewardedDecisionPartition.process` effects (partition.py) -/

/-- Modelled from the spec: `is_valid_message_id` is imported by
partition.py from its sibling `firehose_record` module, which is not part of
this source tree; per the spec a message id must be a valid k-id.  A k-id is
a 20-byte (160-bit) KSUID, so in the numeric model a value is valid iff it
fits in 160 bits. -/
def is_valid_message_id (d : Nat) : Bool := decide (d < 2 ^ 160)

/-- Outcome of `pd.read_parquet` on an existing partition key: the parsed
rows, or an `IOError`. -/
inductive ReadResult where
  | ok (rows : List RDR)
  | ioFailure
deriving DecidableEq

/-- A `RewardedDecisionPartition`: one model, the in-memory rows, and at
most one attached object-store key being merged with. -/
structure RDP where
  model_name : String
  df : List RDR
  s3_key : Option String
deriving DecidableEq

/-- An object-store write or delete issued during `process`.  A `putChunk`
is identified by its rows; its fresh key (derived from the chunk's min/max
decision ids, row count and a random uuid) is not modelled. -/
inductive Effect where
  | putChunk (chunk : List RDR)
  | putUnrecoverable (key : String) (rows : List RDR)
  | deleteKey (key : String)
deriving DecidableEq

/-- The save phase: one put per chunk of the merged table
(`for chunk in split(self.df): chunk.to_parquet(...)`). -/
def saveChunks (mrc : Nat) (df : List RDR) : List Effect :=
  (split df mrc).map Effect.putChunk

/-- Result of one `RDP.process()` call: the store operations it issued, the
error it raised (if any), and the state of the key attachment after load. -/
structure ProcResult where
  effects : List Effect
  raised : Option String
  finalKey : Option String
deriving DecidableEq

/-- Method `RewardedDecisionPartition.process`: load (with the non-fatal
drop-key-on-IOError path and the quarantine-and-raise path for invalid
loaded rows), filter (no-op), sort+merge (see `merge`), save (`split` into
chunks, one put each), cleanup (delete the attached key last, only if one is
still attached). -/
def process (read : String → ReadResult) (mrc : Nat) (p : RDP) : ProcResult :=
  match p.s3_key with
  | none => ⟨saveChunks mrc (merge p.df), none, none⟩
  | some key =>
    match read key with
    | .ioFailure =>
      -- non-fatal: drop the key attachment, do NOT delete the object,
      -- proceed with only the incoming records
      ⟨saveChunks mrc (merge p.df), none, none⟩
    | .ok s3_rows =>
      if s3_rows.all (fun r => is_valid_message_id r.decision_id) then
        ⟨saveChunks mrc (merge (p.df ++ s3_rows)) ++ [Effect.deleteKey key],
         none, some key⟩
      else
        -- quarantine the file, delete the original key, raise ValueError
        ⟨[Effect.putUnrecoverable ("unrecoverable/" ++ key) s3_rows,
          Effect.deleteKey key],
         some "ValueError: invalid records found", some key⟩

/-! ### FirehoseRecord (firehose_record.py) -/

/-- A JSON value: the parsed form of a field of one firehose line. -/
inductive Json where
  | null
  | bool (b : Bool)
  | num (q : Rat)
  | str (s : String)
  | arr (elems : List Json)
  | obj (fields : List (String × Json))

/-- Modelled from the spec: `is_valid_ksuid` (utils, not in this source
tree) — a k-id is a KSUID, whose canonical base62 string form is 27
alphanumeric characters. -/
def is_valid_ksuid (s : String) : Bool :=
  s.length == 27 && s.toList.all (fun ch => ch.isAlphanum)

/-- Modelled from the spec: `is_valid_model_name` (utils, not in this source
tree) checks the regex `^[a-zA-Z0-9][a-zA-Z0-9._-]{0,63}$`. -/
def is_valid_model_name (s : String) : Bool :=
  match s.toList with
  | [] => false
  | ch :: rest =>
    ch.isAlphanum && decide (rest.length ≤ 63)
      && rest.all (fun d => d.isAlphanum || d == '.' || d == '_' || d == '-')

/-- Modelled from the spec: `get_valid_timestamp` (utils, not in this source
tree) parses an ISO-8601 timestamp and raises on malformed input; modelled
as a `YYYY-MM-DDTHH:MM:SSZ` shape check with the string itself carried as
the value. -/
def is_valid_timestamp_str (s : String) : Bool :=
  match s.toList with
  | [y1, y2, y3, y4, '-', m1, m2, '-', d1, d2, 'T',
     h1, h2, ':', n1, n2, ':', s1, s2, 'Z'] =>
    [y1, y2, y3, y4, m1, m2, d1, d2, h1, h2, n1, n2, s1, s2].all Char.isDigit
  | _ => false

/-- A parsed `FirehoseRecord`.  Python slots that `__init__` never assigns
(the decision-only fields of a reward record, and both groups for an
unknown type tag) are `none`. -/
structure FirehoseRecord where
  message_id : String
  timestamp : String
  type : String
  model : String
  decision_id : Option String
  reward : Option Rat
  variant : Option Json
  givens : Option Json
  count : Option Nat
  runners_up : Option (List Json)
  sample : Option Json

inductive FirehoseError where
  | keyError (field : String)
  | valueError (msg : String)
deriving DecidableEq

/-- Constructor `FirehoseRecord.__init__`: field-by-field validation in source order.
The input is the parsed JSON object of one line as an association list;
`json_record[k]` raising `KeyError` on a missing key is modelled by
`lookup` returning `none`; `dict.get(k, None)` maps both a missing key and
a JSON `null` to `none`.  A JSON number is an int iff its denominator is 1.
Only a record whose type tag is the exact string "reward" (resp.
"decision") gets the reward-specific (resp. decision-specific) fields read
and validated; any other string tag skips both branches entirely. -/
def parse_firehose_record (j : List (String × Json)) :
    Except FirehoseError FirehoseRecord :=
  match j.lookup "message_id" with
  | none => .error (.keyError "message_id")
  | some (Json.str mid) =>
    if is_valid_ksuid mid then
      match j.lookup "timestamp" with
      | none => .error (.keyError "timestamp")
      | some (Json.str ts) =>
        if is_valid_timestamp_str ts then
          match j.lookup "type" with
          | none => .error (.keyError "type")
          | some (Json.str t) =>
            match j.lookup "model" with
            | none => .error (.keyError "model")
            | some (Json.str mo) =>
              if is_valid_model_name mo then
                if t == "reward" then
                  match j.lookup "decision_id" with
                  | none => .error (.keyError "decision_id")
                  | some (Json.str d) =>
                    if is_valid_ksuid d then
                      match j.lookup "reward" with
                      | none => .error (.keyError "reward")
                      | some (Json.num q) =>
                        .ok ⟨mid, ts, t, mo, some d, some q,
                             none, none, none, none, none⟩
                      | some _ => .error (.valueError "invalid reward")
                    else .error (.valueError "invalid decision_id")
                  | some _ => .error (.valueError "invalid decision_id")
                else if t == "decision" then
                  let variant : Option Json := match j.lookup "variant" with
                    | none => none
                    | some Json.null => none
                    | some v => some v
                  match j.lookup "givens" with
                  | some (Json.bool _) | some (Json.num _)
                  | some (Json.str _) | some (Json.arr _) =>
                    .error (.valueError "invalid givens")
                  | givensCell =>
                    let givens : Option Json := match givensCell with
                      | some (Json.obj g) => some (Json.obj g)
                      | _ => none
                    match j.lookup "count" with
                    | none => .error (.keyError "count")
                    | some (Json.num q) =>
                      if q.den == 1 && 1 ≤ q.num then
                        match j.lookup "runners_up" with
                        | some (Json.bool _) | some (Json.num _)
                        | some (Json.str _) | some (Json.obj _) =>
                          .error (.valueError "invalid runners_up")
                        | some (Json.arr []) =>
                          .error (.valueError "invalid runners_up")
                        | ruCell =>
                          let runners_up : Option (List Json) :=
                            match ruCell with
                            | some (Json.arr l) => some l
                            | _ => none
                          let sample : Option Json :=
                            match j.lookup "sample" with
                            | none => none
                            | some Json.null => none
                            | some v => some v
                          let has_sample : Bool := (j.lookup "sample").isSome
                          let ru_len : Int := match runners_up with
                            | none => 0
                            | some l => (l.length : Int)
                          let sample_pool_size : Int := q.num - 1 - ru_len
                          if sample_pool_size < 0 then
                            .error (.valueError "invalid count or runners_up")
                          else if has_sample && sample_pool_size == 0 then
                            .error (.valueError "invalid count or runners_up")
                          else if !has_sample && 0 < sample_pool_size then
                            .error (.valueError "missing sample")
                          else
                            .ok ⟨mid, ts, t, mo, none, none, variant, givens,
                                 some q.num.toNat, runners_up, sample⟩
                      else .error (.valueError "invalid count")
                    | some _ => .error (.valueError "invalid count")
                else
                  .ok ⟨mid, ts, t, mo, none, none, none, none, none, none, none⟩
              else .error (.valueError "invalid model")
            | some _ => .error (.valueError "invalid model")
          | some _ => .error (.valueError "invalid type")
        else .error (.valueError "invalid timestamp")
      | some _ => .error (.valueError "invalid timestamp")
    else .error (.valueError "invalid message_id")
  | some _ => .error (.valueError "invalid message_id")

/-- Entries of a JSON object in ascending key order (insertion by key). -/
def insertEntryByKey (p : String × Json) :
    List (String × Json) → List (String × Json)
  | [] => [p]
  | q :: qs => if p.1 ≤ q.1 then p :: q :: qs else q :: insertEntryByKey p qs

/-- Model of `json.dumps(x, option=json.OPT_SORT_KEYS)`, taken at the value level:
the serialized form is canonical, so it is represented by the value with
every object's keys recursively sorted. -/
def canonJson : Json → Json
  | Json.null => Json.null
  | Json.bool b => Json.bool b
  | Json.num q => Json.num q
  | Json.str s => Json.str s
  | Json.arr elems => Json.arr (elems.attach.map (fun x => canonJson x.1))
  | Json.obj fields =>
    Json.obj ((fields.attach.map (fun x => (x.1.1, canonJson x.1.2))).foldr
      insertEntryByKey [])
decreasing_by
  · have := List.sizeOf_lt_of_mem x.2
    simp only [Json.arr.sizeOf_spec]
    omega
  · obtain ⟨⟨a, b⟩, hx⟩ := x
    have := List.sizeOf_lt_of_mem hx
    simp only [Prod.mk.sizeOf_spec] at this
    simp only [Json.obj.sizeOf_spec]
    omega

/-- Method `FirehoseRecord.to_rewarded_decision_dict`: the dict representation of
the rewarded decision record.  Optional decision fields are emitted only
when present; JSON-typed fields pass through the canonical serialization
(`dumps` with sorted keys, modelled by `canonJson`). -/
def to_rewarded_decision_dict (r : FirehoseRecord) : List (String × Json) :=
  if r.type == "decision" then
    [("decision_id", Json.str r.message_id),
     ("timestamp", Json.str r.timestamp),
     ("variant", canonJson (r.variant.getD Json.null))]
    ++ (match r.givens with
        | none => []
        | some g => [("givens", canonJson g)])
    ++ (match r.count with
        | none => []
        | some c => [("count", Json.num (c : Rat))])
    ++ (match r.runners_up with
        | none => []
        | some rus => [("runners_up", Json.arr (rus.map canonJson))])
    ++ (match r.sample with
        | none => []
        | some s => [("sample", canonJson s)])
  else if r.type == "reward" then
    [("decision_id", Json.str (r.decision_id.getD "")),
     ("rewards", Json.obj [(r.message_id, Json.num (r.reward.getD 0))])]
  else []

/-! ### Theorems -/

theorem mem_insertSorted {α : Type} [LinearOrder α] {a x : α} {l : List α} :
    x ∈ insertSorted a l ↔ x = a ∨ x ∈ l := by
  induction l with
  | nil => simp [insertSorted]
  | cons b bs ih =>
    rw [insertSorted]
    by_cases hab : a < b
    · rw [if_pos hab]
      simp [List.mem_cons]
    · rw [if_neg hab]
      by_cases heq : a = b
      · rw [if_pos heq]
        subst heq
        simp only [List.mem_cons]
        tauto
      · rw [if_neg heq]
        simp only [List.mem_cons, ih]
        tauto

theorem sorted_insertSorted {α : Type} [LinearOrder α] (a : α) {l : List α}
    (h : l.Sorted (· < ·)) : (insertSorted a l).Sorted (· < ·) := by
  induction l with
  | nil => simp [insertSorted]
  | cons b bs ih =>
    rw [List.sorted_cons] at h
    by_cases hab : a < b
    · rw [insertSorted, if_pos hab, List.sorted_cons]
      refine ⟨?_, by rw [List.sorted_cons]; exact h⟩
      intro x hx
      rw [List.mem_cons] at hx
      rcases hx with rfl | h2
      · exact hab
      · exact lt_trans hab (h.1 x h2)
    · by_cases heq : a = b
      · subst heq
        rw [insertSorted, if_neg hab, if_pos rfl, List.sorted_cons]
        exact h
      · rw [insertSorted, if_neg hab, if_neg heq, List.sorted_cons]
        constructor
        · intro x hx
          rw [mem_insertSorted] at hx
          rcases hx with rfl | hx
          · exact lt_of_le_of_ne (not_lt.mp hab) (Ne.symm heq)
          · exact h.1 x hx
        · exact ih h.2

theorem insertSorted_eq_self {α : Type} [LinearOrder α] {a : α} {l : List α}
    (hs : l.Sorted (· < ·)) (hm : a ∈ l) : insertSorted a l = l := by
  induction l with
  | nil => cases hm
  | cons b bs ih =>
    rw [List.sorted_cons] at hs
    rcases List.mem_cons.mp hm with rfl | hmem
    · rw [insertSorted, if_neg (lt_irrefl a), if_pos rfl]
    · have hba : b < a := hs.1 a hmem
      rw [insertSorted, if_neg (not_lt.mpr hba.le), if_neg (ne_of_gt hba),
        ih hs.2 hmem]

theorem mem_sortDedup {α : Type} [LinearOrder α] {x : α} {l : List α} :
    x ∈ sortDedup l ↔ x ∈ l := by
  induction l with
  | nil => simp [sortDedup]
  | cons a as ih =>
    simp only [sortDedup, List.foldr_cons] at *
    rw [mem_insertSorted, ih, List.mem_cons]

theorem sorted_sortDedup {α : Type} [LinearOrder α] (l : List α) :
    (sortDedup l).Sorted (· < ·) := by
  induction l with
  | nil => simp [sortDedup]
  | cons a as ih => exact sorted_insertSorted a ih

theorem foldr_insertSorted_eq_self {α : Type} [LinearOrder α] {s : List α}
    (hs : s.Sorted (· < ·)) {l : List α} (hl : ∀ a ∈ l, a ∈ s) :
    l.foldr insertSorted s = s := by
  induction l with
  | nil => rfl
  | cons a as ih =>
    rw [List.foldr_cons, ih (fun x hx => hl x (List.mem_cons_of_mem a hx)),
      insertSorted_eq_self hs (hl a (List.mem_cons_self a as))]

theorem sortDedup_append_self {α : Type} [LinearOrder α] (l : List α) :
    sortDedup (l ++ l) = sortDedup l := by
  rw [sortDedup, List.foldr_append]
  exact foldr_insertSorted_eq_self (sorted_sortDedup l)
    (fun a ha => mem_sortDedup.mpr ha)

theorem sortDedup_eq_self {α : Type} [LinearOrder α] {l : List α}
    (h : l.Sorted (· < ·)) : sortDedup l = l := by
  induction l with
  | nil => rfl
  | cons a as ih =>
    rw [List.sorted_cons] at h
    rw [sortDedup, List.foldr_cons]
    show insertSorted a (sortDedup as) = a :: as
    rw [ih h.2]
    cases as with
    | nil => rfl
    | cons b bs =>
      rw [insertSorted, if_pos (h.1 b (List.mem_cons_self b bs))]

theorem sortDedup_eq_of_mem_iff {α : Type} [LinearOrder α] {l₁ l₂ : List α}
    (h : ∀ a, a ∈ l₁ ↔ a ∈ l₂) : sortDedup l₁ = sortDedup l₂ := by
  refine List.eq_of_perm_of_sorted ?_ (sorted_sortDedup l₁) (sorted_sortDedup l₂)
  refine (List.perm_ext_iff_of_nodup ?_ ?_).mpr ?_
  · exact (sorted_sortDedup l₁).nodup
  · exact (sorted_sortDedup l₂).nodup
  · intro a
    rw [mem_sortDedup, mem_sortDedup]
    exact h a

/-! ### Lookup lemmas for association maps -/

theorem lookup_cons_self {β : Type} (k : Nat) (v : β) (l : List (Nat × β)) :
    ((k, v) :: l).lookup k = some v := by
  rw [List.lookup_cons, beq_self_eq_true]

theorem lookup_cons_ne {β : Type} {k a : Nat} (hk : k ≠ a) (v : β)
    (l : List (Nat × β)) : ((a, v) :: l).lookup k = l.lookup k := by
  rw [List.lookup_cons, beq_eq_false_iff_ne.mpr hk]

theorem lookup_append {β : Type} (l₁ l₂ : List (Nat × β)) (k : Nat) :
    (l₁ ++ l₂).lookup k = (l₁.lookup k).or (l₂.lookup k) := by
  induction l₁ with
  | nil => simp
  | cons p ps ih =>
    obtain ⟨a, v⟩ := p
    by_cases hk : k = a
    · subst hk
      rw [List.cons_append, lookup_cons_self, lookup_cons_self]
      rfl
    · rw [List.cons_append, lookup_cons_ne hk, lookup_cons_ne hk, ih]

theorem lookup_filter_key {β : Type} (q : Nat → Bool) (l : List (Nat × β))
    (k : Nat) :
    (l.filter (fun p => q p.1)).lookup k = if q k then l.lookup k else none := by
  induction l with
  | nil => simp
  | cons p ps ih =>
    obtain ⟨a, v⟩ := p
    by_cases hq : q a
    · by_cases hk : k = a
      · subst hk
        rw [List.filter_cons, if_pos (by simpa using hq), lookup_cons_self,
          lookup_cons_self, if_pos hq]
      · rw [List.filter_cons, if_pos (by simpa using hq), lookup_cons_ne hk,
          lookup_cons_ne hk, ih]
    · by_cases hk : k = a
      · subst hk
        rw [List.filter_cons, if_neg (by simpa using hq), ih, if_neg hq, if_neg hq]
      · rw [List.filter_cons, if_neg (by simpa using hq), ih, lookup_cons_ne hk]

theorem lookup_isSome_iff {β : Type} (l : List (Nat × β)) (k : Nat) :
    (l.lookup k).isSome = true ↔ k ∈ l.map Prod.fst := by
  induction l with
  | nil => simp
  | cons p ps ih =>
    obtain ⟨a, v⟩ := p
    by_cases hk : k = a
    · subst hk
      rw [lookup_cons_self]
      simp
    · rw [lookup_cons_ne hk, ih, List.map_cons]
      simp [List.mem_cons, hk]

theorem lookup_mapUnion (hi lo : RewardsMap) (k : Nat) :
    (mapUnion hi lo).lookup k = (hi.lookup k).or (lo.lookup k) := by
  rw [mapUnion, lookup_append,
    lookup_filter_key (fun a => (hi.lookup a).isNone) lo k]
  cases h : hi.lookup k with
  | some v => simp [Option.or, h]
  | none => simp [Option.or, h]

theorem lookup_chainMerge (ms : List RewardsMap) (k : Nat) :
    (chainMerge ms).lookup k = ms.findSome? (fun m => m.lookup k) := by
  induction ms with
  | nil => simp [chainMerge]
  | cons m ms ih =>
    show (mapUnion m (chainMerge ms)).lookup k = _
    rw [lookup_mapUnion, ih, List.findSome?_cons]
    cases m.lookup k <;> simp [Option.or]

theorem lookup_filterMap_keys {β : Type} (m : List (Nat × β)) (ks : List Nat)
    (k : Nat) :
    (ks.filterMap (fun j => (m.lookup j).map (fun v => (j, v)))).lookup k
      = if k ∈ ks then m.lookup k else none := by
  induction ks with
  | nil => simp
  | cons j js ih =>
    cases hj : m.lookup j with
    | none =>
      rw [List.filterMap_cons]
      simp only [hj, Option.map_none', ih]
      by_cases hk : k = j
      · subst hk
        simp [hj]
      · simp [hk]
    | some v =>
      rw [List.filterMap_cons]
      simp only [hj, Option.map_some']
      by_cases hk : k = j
      · subst hk
        rw [lookup_cons_self]
        simp [hj]
      · rw [lookup_cons_ne hk, ih]
        simp [hk]

theorem lookup_canonicalize (m : RewardsMap) (k : Nat) :
    (canonicalize m).lookup k = m.lookup k := by
  rw [canonicalize, lookup_filterMap_keys]
  by_cases hk : k ∈ canonKeys m
  · rw [if_pos hk]
  · rw [if_neg hk]
    rw [canonKeys, mem_sortDedup] at hk
    cases h : m.lookup k with
    | none => rfl
    | some v =>
      exact absurd ((lookup_isSome_iff m k).mp (by simp [h])) hk

theorem filterMap_lookup_keys_map_fst {β : Type} (m : List (Nat × β))
    (ks : List Nat) (h : ∀ k ∈ ks, (m.lookup k).isSome = true) :
    (ks.filterMap (fun j => (m.lookup j).map (fun v => (j, v)))).map Prod.fst = ks := by
  induction ks with
  | nil => simp
  | cons j js ih =>
    have hj := h j (List.mem_cons_self j js)
    cases hl : m.lookup j with
    | none => rw [hl] at hj; simp at hj
    | some v =>
      rw [List.filterMap_cons]
      simp only [hl, Option.map_some', List.map_cons]
      rw [ih (fun x hx => h x (List.mem_cons_of_mem j hx))]

theorem canonKeys_canonicalize (m : RewardsMap) :
    canonKeys (canonicalize m) = canonKeys m := by
  rw [canonicalize, canonKeys,
    filterMap_lookup_keys_map_fst m (canonKeys m)
      (fun k hk => (lookup_isSome_iff m k).mpr
        (by rwa [canonKeys, mem_sortDedup] at hk))]
  exact sortDedup_eq_self (by rw [canonKeys]; exact sorted_sortDedup _)

theorem canonicalize_congr {m m' : RewardsMap}
    (h : ∀ k, m.lookup k = m'.lookup k) : canonicalize m = canonicalize m' := by
  have hkeys : canonKeys m = canonKeys m' := by
    rw [canonKeys, canonKeys]
    apply sortDedup_eq_of_mem_iff
    intro a
    rw [← lookup_isSome_iff, ← lookup_isSome_iff, h]
  rw [canonicalize, canonicalize, hkeys]
  exact List.filterMap_congr (fun k _ => by rw [h])

theorem canonicalize_idem (m : RewardsMap) :
    canonicalize (canonicalize m) = canonicalize m := by
  have h1 : canonKeys (canonicalize m) = canonKeys m := canonKeys_canonicalize m
  conv_lhs => rw [canonicalize, h1]
  conv_rhs => rw [canonicalize]
  exact List.filterMap_congr (fun k _ => by rw [lookup_canonicalize])

theorem get_first_cell_append_self {α : Type} (cells : List (Option α)) :
    get_first_cell (cells ++ cells) = get_first_cell cells := by
  rw [get_first_cell, get_first_cell, List.filterMap_append]
  cases h : cells.filterMap id with
  | nil => rfl
  | cons a l => rfl

theorem merge_rewards_append_self (cells : List (Option RewardsMap)) :
    merge_rewards (cells ++ cells) = merge_rewards cells := by
  rw [merge_rewards, merge_rewards]
  apply canonicalize_congr
  intro k
  rw [lookup_chainMerge, lookup_chainMerge, List.filterMap_append,
    List.findSome?_append, Option.or_self]

theorem decision_id_agg_group (d : Nat) (g : List RDR) :
    (agg_group d g).decision_id = d := rfl

theorem map_decision_id_merge (rows : List RDR) :
    (merge rows).map (·.decision_id) = sortDedup (rows.map (·.decision_id)) := by
  rw [merge, List.map_map]
  exact List.map_id _ ▸ List.map_congr_left (fun d _ => rfl)

theorem sum_rewards_append_self (cells : List (Option RewardsMap)) :
    sum_rewards (cells ++ cells) = sum_rewards cells := by
  rw [sum_rewards, sum_rewards, merge_rewards_append_self]

theorem agg_group_append_self (d : Nat) (g : List RDR) :
    agg_group d (g ++ g) = agg_group d g := by
  simp only [agg_group, List.map_append, get_first_cell_append_self,
    merge_rewards_append_self, sum_rewards_append_self]

theorem merge_append_self (x : List RDR) : merge (x ++ x) = merge x := by
  rw [merge, merge, List.map_append, sortDedup_append_self]
  apply List.map_congr_left
  intro d _
  rw [List.filter_append]
  exact agg_group_append_self d _

theorem get_first_cell_single {α : Type} (o : Option α) : get_first_cell [o] = o := by
  cases o <;> rfl

theorem merge_rewards_single (m : RewardsMap) :
    merge_rewards [some m] = canonicalize m := by
  simp [merge_rewards, chainMerge, mapUnion]

theorem agg_group_collapse (d : Nat) (g : List RDR) :
    agg_group d [agg_group d g] = agg_group d g := by
  have hM : canonicalize (merge_rewards (g.map (·.rewards)))
      = merge_rewards (g.map (·.rewards)) := canonicalize_idem _
  simp only [agg_group, List.map_cons, List.map_nil, get_first_cell_single,
    merge_rewards_single, sum_rewards, hM]

theorem filter_eq_singleton_of_sorted {α : Type} [LinearOrder α] {s : List α}
    (hs : s.Sorted (· < ·)) {d : α} (hd : d ∈ s) (p : α → Bool)
    (hp : ∀ a, p a = true ↔ a = d) : s.filter p = [d] := by
  induction s with
  | nil => cases hd
  | cons b t ih =>
    rw [List.sorted_cons] at hs
    rcases List.mem_cons.mp hd with rfl | hmem
    · rw [List.filter_cons, if_pos ((hp _).mpr rfl)]
      rw [List.filter_eq_nil_iff.mpr ?_]
      intro a ha hpa
      exact absurd ((hp a).mp hpa) (ne_of_gt (hs.1 a ha))
    · have hbd : b ≠ d := ne_of_lt (hs.1 d hmem)
      rw [List.filter_cons, if_neg (fun hpb => hbd ((hp b).mp hpb)),
        ih hs.2 hmem]

theorem merge_merge (x : List RDR) : merge (merge x) = merge x := by
  conv_lhs => rw [merge]
  rw [map_decision_id_merge, sortDedup_eq_self (sorted_sortDedup _)]
  conv_rhs => rw [merge]
  apply List.map_congr_left
  intro d hd
  have hfil : (merge x).filter (fun r => decide (r.decision_id = d))
      = [agg_group d (x.filter (fun r => decide (r.decision_id = d)))] := by
    rw [merge, List.filter_map]
    have hcong : (sortDedup (x.map (·.decision_id))).filter
        ((fun r => decide (r.decision_id = d)) ∘
          (fun e => agg_group e (x.filter (fun r => decide (r.decision_id = e)))))
        = (sortDedup (x.map (·.decision_id))).filter (fun a => decide (a = d)) :=
      List.filter_congr (fun a _ => rfl)
    rw [hcong, filter_eq_singleton_of_sorted (sorted_sortDedup _) hd _
        (fun a => by simp), List.map_cons, List.map_nil]
  rw [hfil, agg_group_collapse]

/-- C1: merge is idempotent.  Applying `RewardedDecisionPartition.merge` to
an already merged batch returns the same table row-for-row, and merging a
batch concatenated with a duplicate of itself gives the same table as
merging the batch once (`M(x,x) = M(x)`). -/
theorem merge_idempotent_c1 (batch : List RDR) :
    merge (merge batch) = merge batch ∧ merge (batch ++ batch) = merge batch :=
  ⟨merge_merge batch, merge_append_self batch⟩

/-- C2: in every row produced by `merge`, the scalar `reward` column equals
the numeric sum of the values of that row's merged `rewards` map (exactly,
in the rational model of Python floats). -/
theorem reward_eq_sum_of_rewards_c2 (rows : List RDR) (r : RDR)
    (hr : r ∈ merge rows) :
    ∃ m : RewardsMap, r.rewards = some m ∧ r.reward = some (sumValues m) := by
  rw [merge] at hr
  rcases List.mem_map.mp hr with ⟨d, hd, rfl⟩
  exact ⟨merge_rewards _, rfl, rfl⟩

theorem reward_eq_sum_of_rewards_c2_witness :
    ∃ m : RewardsMap,
      (agg_group 5 [⟨5, none, none, none, none, none, none,
        some [(7, (2 : Rat))], none⟩]).rewards = some m ∧
      (agg_group 5 [⟨5, none, none, none, none, none, none,
        some [(7, (2 : Rat))], none⟩]).reward = some (sumValues m) :=
  reward_eq_sum_of_rewards_c2
    [⟨5, none, none, none, none, none, none, some [(7, (2 : Rat))], none⟩]
    (agg_group 5 [⟨5, none, none, none, none, none, none,
      some [(7, (2 : Rat))], none⟩])
    (List.mem_singleton.mpr rfl)

/-- C3, counterexample: reward-map collisions do NOT resolve to the later
writer.  Two rows with the same decision_id both bind reward message_id 7
(values 1 and 2, in that frame order); the merged map keeps the FIRST
writer's value 1, not the later writer's value 2, because
`dict(ChainMap(*ds))` gives priority to the earliest mapping. -/
theorem merge_rewards_last_writer_false_c3 :
    (merge [⟨5, none, none, none, none, none, none, some [(7, (1 : Rat))], none⟩,
            ⟨5, none, none, none, none, none, none, some [(7, (2 : Rat))], none⟩]).map
        (·.rewards) = [some [(7, (1 : Rat))]]
    ∧ (merge [⟨5, none, none, none, none, none, none, some [(7, (1 : Rat))], none⟩,
              ⟨5, none, none, none, none, none, none, some [(7, (2 : Rat))], none⟩]).map
        (·.rewards) ≠ [some [(7, (2 : Rat))]] := by
  constructor
  · decide
  · decide

/-- C3, amended: the `rewards` maps of a decision_id group are shallow-merged
into one map, and a key collision resolves to the FIRST writer's value: the
value bound to a reward message_id is the one found in the earliest map (in
the group's frame order) that contains it, per ChainMap's first-mapping-wins
lookup. -/
theorem merge_rewards_first_writer_c3 (rows : List RDR) (r : RDR)
    (hr : r ∈ merge rows) (k : Nat) :
    ∃ m : RewardsMap, r.rewards = some m ∧
      m.lookup k = ((rows.filter
          (fun x => decide (x.decision_id = r.decision_id))).filterMap
            (·.rewards)).findSome? (fun mp => mp.lookup k) := by
  rw [merge] at hr
  rcases List.mem_map.mp hr with ⟨d, hd, rfl⟩
  refine ⟨merge_rewards _, rfl, ?_⟩
  show (merge_rewards _).lookup k = _
  rw [merge_rewards, lookup_canonicalize, lookup_chainMerge,
    List.filterMap_map]
  rfl

theorem merge_rewards_first_writer_c3_witness :
    ∃ m : RewardsMap,
      (agg_group 5
        [⟨5, none, none, none, none, none, none, some [(7, (1 : Rat))], none⟩,
         ⟨5, none, none, none, none, none, none, some [(7, (2 : Rat))], none⟩]).rewards
        = some m ∧
      m.lookup 7 = (([(⟨5, none, none, none, none, none, none,
            some [(7, (1 : Rat))], none⟩ : RDR),
          ⟨5, none, none, none, none, none, none, some [(7, (2 : Rat))], none⟩].filter
            (fun x => decide (x.decision_id =
              (agg_group 5
                [⟨5, none, none, none, none, none, none, some [(7, (1 : Rat))], none⟩,
                 ⟨5, none, none, none, none, none, none, some [(7, (2 : Rat))],
                   none⟩]).decision_id))).filterMap
          (·.rewards)).findSome? (fun mp => mp.lookup 7) :=
  merge_rewards_first_writer_c3
    [⟨5, none, none, none, none, none, none, some [(7, (1 : Rat))], none⟩,
     ⟨5, none, none, none, none, none, none, some [(7, (2 : Rat))], none⟩]
    (agg_group 5
      [⟨5, none, none, none, none, none, none, some [(7, (1 : Rat))], none⟩,
       ⟨5, none, none, none, none, none, none, some [(7, (2 : Rat))], none⟩])
    (List.mem_singleton.mpr rfl) 7

theorem mapUnion_self (m : RewardsMap) : mapUnion m m = m := by
  rw [mapUnion, List.filter_eq_nil_iff.mpr ?_, List.append_nil]
  intro p hp
  have : (m.lookup p.1).isSome = true :=
    (lookup_isSome_iff m p.1).mpr (List.mem_map.mpr ⟨p, hp, rfl⟩)
  cases h : m.lookup p.1 with
  | none => rw [h] at this; cases this
  | some v => simp [h]

theorem chainMerge_replicate (n : Nat) (m : RewardsMap) :
    chainMerge (List.replicate (n + 1) m) = m := by
  induction n with
  | zero => simp [chainMerge, mapUnion]
  | succ n ih =>
    rw [List.replicate_succ]
    show mapUnion m (chainMerge (List.replicate (n + 1) m)) = m
    rw [ih, mapUnion_self]

theorem get_first_cell_replicate {α : Type} (n : Nat) (o : Option α) :
    get_first_cell (List.replicate (n + 1) o) = get_first_cell [o] := by
  rw [get_first_cell, get_first_cell, List.filterMap_replicate]
  cases o with
  | none => rfl
  | some a => rfl

theorem merge_rewards_replicate (n : Nat) (o : Option RewardsMap) :
    merge_rewards (List.replicate (n + 1) o) = merge_rewards [o] := by
  rw [merge_rewards, merge_rewards, List.filterMap_replicate]
  cases o with
  | none => rfl
  | some m =>
    show canonicalize (chainMerge (List.replicate (n + 1) m)) = _
    rw [chainMerge_replicate]
    exact (merge_rewards_single m).symm

theorem sum_rewards_replicate (n : Nat) (o : Option RewardsMap) :
    sum_rewards (List.replicate (n + 1) o) = sum_rewards [o] := by
  rw [sum_rewards, sum_rewards, merge_rewards_replicate]

theorem agg_group_replicate (d : Nat) (r : RDR) (n : Nat) :
    agg_group d (List.replicate (n + 1) r) = agg_group d [r] := by
  simp only [agg_group, List.map_replicate, get_first_cell_replicate,
    merge_rewards_replicate, sum_rewards_replicate, List.map_cons, List.map_nil]

theorem agg_group_eq_of_const {d : Nat} {g : List RDR} {r : RDR}
    (hne : g ≠ []) (hall : ∀ a ∈ g, a = r) : agg_group d g = agg_group d [r] := by
  obtain ⟨n, hn⟩ : ∃ n, g.length = n + 1 :=
    ⟨g.length - 1, (Nat.succ_pred_eq_of_pos (List.length_pos.mpr hne)).symm⟩
  have hg : agg_group d g = agg_group d (List.replicate (n + 1) r) := by
    rw [← hn, ← List.eq_replicate_of_mem hall]
  rw [hg, agg_group_replicate]

/-- C4, counterexample: permuting the rows of a batch can change the merged
table.  With two rows sharing one decision_id whose reward maps bind the
same message_id to different values, the first-non-null/first-mapping-wins
tie-breaks make the result depend on the input order. -/
theorem merge_commutative_false_c4 :
    ([⟨5, none, none, none, none, none, none, some [(7, (2 : Rat))], none⟩,
      ⟨5, none, none, none, none, none, none, some [(7, (1 : Rat))], none⟩] : List RDR).Perm
      [⟨5, none, none, none, none, none, none, some [(7, (1 : Rat))], none⟩,
       ⟨5, none, none, none, none, none, none, some [(7, (2 : Rat))], none⟩]
    ∧ merge [⟨5, none, none, none, none, none, none, some [(7, (2 : Rat))], none⟩,
             ⟨5, none, none, none, none, none, none, some [(7, (1 : Rat))], none⟩]
      ≠ merge [⟨5, none, none, none, none, none, none, some [(7, (1 : Rat))], none⟩,
               ⟨5, none, none, none, none, none, none, some [(7, (2 : Rat))], none⟩] := by
  constructor
  · exact List.Perm.swap _ _ _
  · intro h
    have h2 := congrArg (List.map (·.rewards)) h
    revert h2
    decide

/-- C4, amended: merging a permuted batch yields the same merged table,
provided any two rows of the batch that share a decision_id are equal
row-for-row (the domain guarantee the spec appeals to: duplicate decision
records are identical and duplicate rewards carry equal values). -/
theorem merge_commutative_c4 (rows rows' : List RDR) (hperm : rows'.Perm rows)
    (hdup : ∀ r1 ∈ rows, ∀ r2 ∈ rows, r1.decision_id = r2.decision_id → r1 = r2) :
    merge rows' = merge rows := by
  rw [merge, merge]
  have hkeys : sortDedup (rows'.map (·.decision_id))
      = sortDedup (rows.map (·.decision_id)) :=
    sortDedup_eq_of_mem_iff (fun a => (hperm.map (·.decision_id)).mem_iff)
  rw [hkeys]
  apply List.map_congr_left
  intro d hd
  rw [mem_sortDedup] at hd
  rcases List.mem_map.mp hd with ⟨r0, hr0, hr0d⟩
  have hgall : ∀ a ∈ rows.filter (fun r => decide (r.decision_id = d)), a = r0 := by
    intro a ha
    rw [List.mem_filter, decide_eq_true_eq] at ha
    exact hdup a ha.1 r0 hr0 (ha.2.trans hr0d.symm)
  have hgall' : ∀ a ∈ rows'.filter (fun r => decide (r.decision_id = d)), a = r0 := by
    intro a ha
    rw [List.mem_filter, decide_eq_true_eq] at ha
    exact hdup a (hperm.mem_iff.mp ha.1) r0 hr0 (ha.2.trans hr0d.symm)
  have hne : rows.filter (fun r => decide (r.decision_id = d)) ≠ [] := by
    intro hcon
    exact List.filter_eq_nil_iff.mp hcon r0 hr0 (by simp [hr0d])
  have hne' : rows'.filter (fun r => decide (r.decision_id = d)) ≠ [] := by
    intro hcon
    exact List.filter_eq_nil_iff.mp hcon r0 (hperm.mem_iff.mpr hr0) (by simp [hr0d])
  rw [agg_group_eq_of_const hne' hgall', agg_group_eq_of_const hne hgall]

theorem merge_commutative_c4_witness :
    merge [(⟨6, none, none, none, none, none, none, some [(8, (3 : Rat))], none⟩ : RDR),
           ⟨5, some "t", none, none, none, none, none, none, none⟩]
      = merge [(⟨5, some "t", none, none, none, none, none, none, none⟩ : RDR),
           ⟨6, none, none, none, none, none, none, some [(8, (3 : Rat))], none⟩] :=
  merge_commutative_c4
    [⟨5, some "t", none, none, none, none, none, none, none⟩,
     ⟨6, none, none, none, none, none, none, some [(8, (3 : Rat))], none⟩]
    [⟨6, none, none, none, none, none, none, some [(8, (3 : Rat))], none⟩,
     ⟨5, some "t", none, none, none, none, none, none, none⟩]
    (List.Perm.swap _ _ _)
    (by decide)

theorem flatten_slices {α : Type} (l : List α) (f : Nat → Nat)
    (hmono : ∀ i, f i ≤ f (i + 1)) (c : Nat) :
    ((List.range c).map (fun i => (l.drop (f i)).take (f (i + 1) - f i))).flatten
      = (l.drop (f 0)).take (f c - f 0) := by
  induction c with
  | zero => simp
  | succ c ih =>
    have hfc : f 0 ≤ f c := (monotone_nat_of_le_succ hmono) (Nat.zero_le c)
    have hcc : f c ≤ f (c + 1) := hmono c
    rw [List.range_succ, List.map_append, List.flatten_append, ih]
    simp only [List.map_cons, List.map_nil, List.flatten_cons, List.flatten_nil,
      List.append_nil]
    rw [show f (c + 1) - f 0 = (f c - f 0) + (f (c + 1) - f c) by omega,
      List.take_add]
    congr 1
    rw [List.drop_drop, show f 0 + (f c - f 0) = f c by omega]

theorem length_split_roughly_equal {α : Type} (l : List α) (c : Nat) :
    (split_roughly_equal l c).length = c := by
  simp [split_roughly_equal]

theorem flatten_slices_boundaries {α : Type} (l : List α) (k m c : Nat)
    (hkm : c * k + m = l.length) (hmc : m ≤ c) :
    ((List.range c).map (fun i =>
      (l.drop (i * k + min i m)).take
        ((i + 1) * k + min (i + 1) m - (i * k + min i m)))).flatten = l := by
  have hmono : ∀ i, i * k + min i m ≤ (i + 1) * k + min (i + 1) m := by
    intro i
    have h1 : (i + 1) * k = i * k + k := by ring
    omega
  rw [flatten_slices l _ hmono c]
  have h0 : 0 * k + min 0 m = 0 := by omega
  have hc : c * k + min c m = l.length := by omega
  rw [h0, hc, Nat.sub_zero, List.drop_zero]
  exact List.take_length l

theorem flatten_split_roughly_equal {α : Type} (l : List α) (c : Nat) :
    0 < c → (split_roughly_equal l c).flatten = l := by
  intro hc
  rw [split_roughly_equal]
  exact flatten_slices_boundaries l (l.length / c) (l.length % c) c
    (Nat.div_add_mod l.length c) (le_of_lt (Nat.mod_lt _ hc))

theorem length_slice_boundaries {α : Type} (l : List α) (k m c i : Nat)
    (hkm : c * k + m = l.length) (hmc : m < c) (hi : i < c) :
    ((l.drop (i * k + min i m)).take
      ((i + 1) * k + min (i + 1) m - (i * k + min i m))).length
      = k + (if i < m then 1 else 0) := by
  have h1 : (i + 1) * k ≤ c * k := Nat.mul_le_mul_right _ hi
  have h2 : (i + 1) * k = i * k + k := by ring
  rw [List.length_take, List.length_drop]
  by_cases him : i < m
  · rw [if_pos him]
    omega
  · rw [if_neg him]
    omega

theorem length_of_mem_split_roughly_equal {α : Type} {l : List α} {c : Nat}
    (hc : 0 < c) {ch : List α} (hch : ch ∈ split_roughly_equal l c) :
    ∃ i, i < c ∧ ch.length
      = l.length / c + (if i < l.length % c then 1 else 0) := by
  rw [split_roughly_equal] at hch
  rcases List.mem_map.mp hch with ⟨i, hir, rfl⟩
  rw [List.mem_range] at hir
  exact ⟨i, hir, length_slice_boundaries l (l.length / c) (l.length % c) c i
    (Nat.div_add_mod l.length c) (Nat.mod_lt _ hc) hir⟩

theorem chunk_count_facts (n mrc c : Nat) (hm : 1 ≤ mrc) (hn1 : 1 ≤ n)
    (hc : c = (n + mrc - 1) / mrc) : 0 < c ∧ c ≤ n ∧ n ≤ mrc * c := by
  have hA : mrc * c + (n + mrc - 1) % mrc = n + mrc - 1 := by
    rw [hc]
    exact Nat.div_add_mod _ _
  have hB : (n + mrc - 1) % mrc < mrc := Nat.mod_lt _ hm
  have hc1 : 0 < c := by
    rcases Nat.eq_zero_or_pos c with hc0 | hcp
    · rw [hc0, Nat.mul_zero] at hA
      omega
    · exact hcp
  refine ⟨hc1, ?_, by omega⟩
  by_contra hcon
  push_neg at hcon
  have h1 : mrc * (n + 1) ≤ mrc * c := Nat.mul_le_mul_left mrc hcon
  have h2 : n ≤ mrc * n := Nat.le_mul_of_pos_left _ hm
  have h3 : mrc * (n + 1) = mrc * n + mrc := by ring
  omega

theorem chunk_size_facts (n mrc c k m : Nat) (hc1 : 0 < c) (hcn : c ≤ n)
    (hnc : n ≤ mrc * c) (hkm : c * k + m = n) (hmc : m < c) :
    1 ≤ k ∧ k ≤ mrc ∧ (0 < m → k + 1 ≤ mrc) := by
  have hcm : mrc * c = c * mrc := Nat.mul_comm mrc c
  refine ⟨?_, ?_, ?_⟩
  · by_contra hcon
    push_neg at hcon
    have hk0 : k = 0 := by omega
    rw [hk0, Nat.mul_zero] at hkm
    omega
  · by_contra hcon
    push_neg at hcon
    have h1 : c * (mrc + 1) ≤ c * k := Nat.mul_le_mul_left c (by omega)
    have h2 : c * (mrc + 1) = c * mrc + c := by ring
    omega
  · intro hm0
    by_contra hcon
    push_neg at hcon
    have h1 : c * mrc ≤ c * k := Nat.mul_le_mul_left c (by omega)
    omega

theorem flatten_split {α : Type} (l : List α) (mrc : Nat) (hm : 1 ≤ mrc)
    (hl : l ≠ []) : (split l mrc).flatten = l :=
  flatten_split_roughly_equal l _
    (chunk_count_facts l.length mrc _ hm (List.length_pos.mpr hl) rfl).1

/-- C8: for a non-empty merged table of `n` rows and `max_row_count ≥ 1`,
`split` produces `ceil(n / max)` contiguous chunks (in Nat arithmetic,
`(n + max - 1) / max`), whose concatenation in order is exactly the input
table (so every row lands in exactly one chunk, in order), with every chunk
non-empty, of at most `max_row_count` rows, and any two chunk sizes
differing by at most one. -/
theorem split_chunks_c8 {α : Type} (l : List α) (mrc : Nat)
    (hm : 1 ≤ mrc) (hl : l ≠ []) :
    (split l mrc).length = (l.length + mrc - 1) / mrc
    ∧ (split l mrc).flatten = l
    ∧ (∀ ch ∈ split l mrc, ch.length ≤ mrc ∧ ch ≠ [])
    ∧ (∀ ch1 ∈ split l mrc, ∀ ch2 ∈ split l mrc,
        ch1.length ≤ ch2.length + 1) := by
  have hn1 : 1 ≤ l.length := List.length_pos.mpr hl
  obtain ⟨hc1, hcn, hnc⟩ := chunk_count_facts l.length mrc
    ((l.length + mrc - 1) / mrc) hm hn1 rfl
  obtain ⟨hk1, hkle, hkle1⟩ := chunk_size_facts l.length mrc
    ((l.length + mrc - 1) / mrc) (l.length / ((l.length + mrc - 1) / mrc))
    (l.length % ((l.length + mrc - 1) / mrc)) hc1 hcn hnc
    (Nat.div_add_mod _ _) (Nat.mod_lt _ hc1)
  refine ⟨length_split_roughly_equal l _, flatten_split_roughly_equal l _ hc1,
    ?_, ?_⟩
  · intro ch hch
    rcases length_of_mem_split_roughly_equal hc1 hch with ⟨i, hic, hlen⟩
    constructor
    · rw [hlen]
      by_cases him : i < l.length % ((l.length + mrc - 1) / mrc)
      · rw [if_pos him]
        exact hkle1 (by omega)
      · rw [if_neg him]
        omega
    · rw [← List.length_pos, hlen]
      omega
  · intro ch1 hch1 ch2 hch2
    rcases length_of_mem_split_roughly_equal hc1 hch1 with ⟨i1, _, hl1⟩
    rcases length_of_mem_split_roughly_equal hc1 hch2 with ⟨i2, _, hl2⟩
    rw [hl1, hl2]
    by_cases h1 : i1 < l.length % ((l.length + mrc - 1) / mrc) <;>
      by_cases h2 : i2 < l.length % ((l.length + mrc - 1) / mrc) <;>
      simp [h1, h2] <;> omega

theorem split_chunks_c8_witness :
    (split [1, 2, 3, 4, 5] 2).length = (([1, 2, 3, 4, 5] : List Nat).length + 2 - 1) / 2
    ∧ (split [1, 2, 3, 4, 5] 2).flatten = [1, 2, 3, 4, 5]
    ∧ (∀ ch ∈ split [1, 2, 3, 4, 5] 2, ch.length ≤ 2 ∧ ch ≠ [])
    ∧ (∀ ch1 ∈ split [1, 2, 3, 4, 5] 2, ∀ ch2 ∈ split ([1, 2, 3, 4, 5] : List Nat) 2,
        ch1.length ≤ ch2.length + 1) :=
  split_chunks_c8 [1, 2, 3, 4, 5] 2 (by decide) (by decide)

theorem filter_range_eq_singleton {v n : Nat} (hv : v < n) :
    (List.range n).filter (fun i => decide (i = v)) = [v] := by
  induction n with
  | zero => cases hv
  | succ n ih =>
    rw [List.range_succ, List.filter_append]
    by_cases hvn : v = n
    · subst hvn
      rw [List.filter_eq_nil_iff.mpr ?_]
      · simp
      · intro a ha
        rw [List.mem_range] at ha
        simp only [decide_eq_true_eq]
        omega
    · rw [ih (by omega)]
      have : (List.filter (fun i => decide (i = v)) [n]) = [] := by
        simp [hvn]
        omega
      rw [this, List.append_nil]

/-- C9: every input file whose name starts with 16 hexadecimal characters is
selected by exactly one worker: for `node_count ≥ 1`, the set of node ids in
`[0, node_count)` whose `identify_incoming_files_to_process` output contains
the file is exactly `{h % node_count}`, so the workers' selections are
pairwise disjoint and their union covers each such file exactly once. -/
theorem hash_partition_c9 (files : List String) (f : String) (h node_count : Nat)
    (hf : f ∈ files) (hh : leading_hex_value f = some h)
    (hn : 1 ≤ node_count) :
    (List.range node_count).filter
        (fun i => decide (f ∈ identify_incoming_files_to_process files i node_count))
      = [h % node_count] := by
  have hmem : ∀ i, (f ∈ identify_incoming_files_to_process files i node_count)
      ↔ i = h % node_count := by
    intro i
    rw [identify_incoming_files_to_process, List.mem_filter]
    constructor
    · rintro ⟨-, hsel⟩
      rw [selects_file, hh] at hsel
      exact (beq_iff_eq.mp hsel).symm
    · rintro rfl
      refine ⟨hf, ?_⟩
      rw [selects_file, hh]
      exact beq_self_eq_true _
  have hcong : (List.range node_count).filter
        (fun i => decide (f ∈ identify_incoming_files_to_process files i node_count))
      = (List.range node_count).filter (fun i => decide (i = h % node_count)) :=
    List.filter_congr (fun i _ => by
      rw [decide_eq_decide]
      exact hmem i)
  rw [hcong, filter_range_eq_singleton (Nat.mod_lt h hn)]

theorem hash_partition_c9_witness :
    (List.range 3).filter
        (fun i => decide ("0123456789abcdef-rest.jsonl.gz" ∈
          identify_incoming_files_to_process
            ["0123456789abcdef-rest.jsonl.gz"] i 3))
      = [0x0123456789abcdef % 3] :=
  hash_partition_c9 ["0123456789abcdef-rest.jsonl.gz"]
    "0123456789abcdef-rest.jsonl.gz" 0x0123456789abcdef 3
    (List.mem_singleton.mpr rfl) (by decide) (by decide)

/-- C5, counterexample: after a successful repair, live partition keys can
still have overlapping `(min_ts, max_ts)` intervals, and a second run finds
overlaps.  With `PARQUET_FILE_MAX_DECISION_RECORDS = 1`, two overlapping
one-row partitions whose ids share a timestamp second are consolidated and
then re-split into two partitions whose closed key intervals still touch, so
re-running repair again finds a two-key overlap component. -/
theorem repair_idempotent_false_c5 :
    hasOverlaps (repair_overlapping_keys 1 [[0], [1]]) = true := by decide

theorem list_min_le {p : List Nat} : ∀ x ∈ p, list_min p ≤ x := by
  induction p with
  | nil => intro x hx; cases hx
  | cons a t ih =>
    intro x hx
    cases t with
    | nil =>
      rw [List.mem_singleton] at hx
      subst hx
      exact le_refl _
    | cons b s =>
      rw [list_min]
      rcases List.mem_cons.mp hx with rfl | hx2
      · exact min_le_left _ _
      · exact le_trans (min_le_right _ _) (ih x hx2)

theorem list_min_mem {p : List Nat} (h : p ≠ []) : list_min p ∈ p := by
  induction p with
  | nil => exact absurd rfl h
  | cons a t ih =>
    cases t with
    | nil => simp [list_min]
    | cons b s =>
      rw [list_min]
      rcases le_total a (list_min (b :: s)) with hle | hle
      · rw [min_eq_left hle]
        exact List.mem_cons_self _ _
      · rw [min_eq_right hle]
        exact List.mem_cons_of_mem _ (ih (by simp))

theorem le_list_max {p : List Nat} : ∀ x ∈ p, x ≤ list_max p := by
  induction p with
  | nil => intro x hx; cases hx
  | cons a t ih =>
    intro x hx
    cases t with
    | nil =>
      rw [List.mem_singleton] at hx
      subst hx
      exact le_refl _
    | cons b s =>
      rw [list_max]
      rcases List.mem_cons.mp hx with rfl | hx2
      · exact le_max_left _ _
      · exact le_trans (ih x hx2) (le_max_right _ _)

theorem list_max_mem {p : List Nat} (h : p ≠ []) : list_max p ∈ p := by
  induction p with
  | nil => exact absurd rfl h
  | cons a t ih =>
    cases t with
    | nil => simp [list_max]
    | cons b s =>
      rw [list_max]
      rcases le_total a (list_max (b :: s)) with hle | hle
      · rw [max_eq_right hle]
        exact List.mem_cons_of_mem _ (ih (by simp))
      · rw [max_eq_left hle]
        exact List.mem_cons_self _ _

theorem ksuid_timestamp_mono {a b : Nat} (h : a ≤ b) :
    ksuid_timestamp a ≤ ksuid_timestamp b := Nat.div_le_div_right h

theorem part_lo_le_ts {p : List Nat} {x : Nat} (hx : x ∈ p) :
    part_lo p ≤ ksuid_timestamp x := ksuid_timestamp_mono (list_min_le x hx)

theorem ts_le_part_hi {p : List Nat} {x : Nat} (hx : x ∈ p) :
    ksuid_timestamp x ≤ part_hi p := ksuid_timestamp_mono (le_list_max x hx)

theorem part_lo_le_part_hi {p : List Nat} (h : p ≠ []) : part_lo p ≤ part_hi p :=
  le_trans (part_lo_le_ts (list_max_mem h)) (le_refl _)

theorem accOf_wf {p : List Nat} (h : p ≠ []) : AccWF (accOf p) :=
  ⟨part_lo_le_part_hi h, by simp [accOf], by
    intro q hq
    rw [accOf, List.mem_singleton] at hq
    subst hq
    exact ⟨h, le_refl _, le_refl _⟩⟩

theorem sweepGo_lo_bound (cur : OverlapAcc) (xs : List OverlapAcc)
    (hcn : ∀ x ∈ xs, cur.lo ≤ x.lo)
    (hsort : xs.Pairwise (fun a b => a.lo ≤ b.lo)) :
    ∀ b ∈ sweepGo cur xs, cur.lo ≤ b.lo := by
  induction xs generalizing cur with
  | nil =>
    intro b hb
    rw [sweepGo, List.mem_singleton] at hb
    subst hb
    exact le_refl _
  | cons nxt rest ih =>
    rw [List.pairwise_cons] at hsort
    intro b hb
    rw [sweepGo] at hb
    by_cases hov : overlapsB cur.lo cur.hi nxt.lo nxt.hi = true
    · rw [if_pos hov] at hb
      have hmin : min cur.lo nxt.lo = cur.lo :=
        min_eq_left (hcn nxt (List.mem_cons_self _ _))
      have hbnd := ih ⟨min cur.lo nxt.lo, max cur.hi nxt.hi, cur.parts ++ nxt.parts⟩
        (fun x hx => by
          show min cur.lo nxt.lo ≤ x.lo
          rw [hmin]
          exact hcn x (List.mem_cons_of_mem _ hx))
        hsort.2 b hb
      rw [hmin] at hbnd
      exact hbnd
    · rw [if_neg hov] at hb
      rcases List.mem_cons.mp hb with rfl | hb2
      · exact le_refl _
      · exact le_trans (hcn nxt (List.mem_cons_self _ _))
          (ih nxt hsort.1 hsort.2 b hb2)

theorem sweepGo_wf (cur : OverlapAcc) (xs : List OverlapAcc)
    (hcur : AccWF cur) (hxs : ∀ x ∈ xs, AccWF x) :
    ∀ b ∈ sweepGo cur xs, AccWF b := by
  induction xs generalizing cur with
  | nil =>
    intro b hb
    rw [sweepGo, List.mem_singleton] at hb
    subst hb
    exact hcur
  | cons nxt rest ih =>
    intro b hb
    have hnxt : AccWF nxt := hxs nxt (List.mem_cons_self _ _)
    rw [sweepGo] at hb
    by_cases hov : overlapsB cur.lo cur.hi nxt.lo nxt.hi = true
    · rw [if_pos hov] at hb
      refine ih ⟨min cur.lo nxt.lo, max cur.hi nxt.hi, cur.parts ++ nxt.parts⟩
        ⟨?_, ?_, ?_⟩ (fun x hx => hxs x (List.mem_cons_of_mem _ hx)) b hb
      · exact le_trans (min_le_left _ _) (le_trans hcur.1 (le_max_left _ _))
      · intro hcon
        exact hcur.2.1 (List.append_eq_nil.mp hcon).1
      · intro p hp
        rcases List.mem_append.mp hp with hp1 | hp2
        · obtain ⟨hpne, hplo, hphi⟩ := hcur.2.2 p hp1
          exact ⟨hpne, le_trans (min_le_left _ _) hplo,
            le_trans hphi (le_max_left _ _)⟩
        · obtain ⟨hpne, hplo, hphi⟩ := hnxt.2.2 p hp2
          exact ⟨hpne, le_trans (min_le_right _ _) hplo,
            le_trans hphi (le_max_right _ _)⟩
    · rw [if_neg hov] at hb
      rcases List.mem_cons.mp hb with rfl | hb2
      · exact hcur
      · exact ih nxt hnxt (fun x hx => hxs x (List.mem_cons_of_mem _ hx)) b hb2

theorem sweepGo_separated (cur : OverlapAcc) (xs : List OverlapAcc)
    (hcur : AccWF cur) (hxs : ∀ x ∈ xs, AccWF x)
    (hcn : ∀ x ∈ xs, cur.lo ≤ x.lo)
    (hsort : xs.Pairwise (fun a b => a.lo ≤ b.lo)) :
    (sweepGo cur xs).Pairwise (fun a b => a.hi < b.lo) := by
  induction xs generalizing cur with
  | nil =>
    rw [sweepGo]
    exact List.pairwise_singleton _ _
  | cons nxt rest ih =>
    rw [List.pairwise_cons] at hsort
    have hnxt : AccWF nxt := hxs nxt (List.mem_cons_self _ _)
    rw [sweepGo]
    by_cases hov : overlapsB cur.lo cur.hi nxt.lo nxt.hi = true
    · rw [if_pos hov]
      have hmin : min cur.lo nxt.lo = cur.lo :=
        min_eq_left (hcn nxt (List.mem_cons_self _ _))
      refine ih ⟨min cur.lo nxt.lo, max cur.hi nxt.hi, cur.parts ++ nxt.parts⟩
        ⟨?_, ?_, ?_⟩ (fun x hx => hxs x (List.mem_cons_of_mem _ hx))
        (fun x hx => by
          show min cur.lo nxt.lo ≤ x.lo
          rw [hmin]
          exact hcn x (List.mem_cons_of_mem _ hx))
        hsort.2
      · exact le_trans (min_le_left _ _) (le_trans hcur.1 (le_max_left _ _))
      · intro hcon
        exact hcur.2.1 (List.append_eq_nil.mp hcon).1
      · intro p hp
        rcases List.mem_append.mp hp with hp1 | hp2
        · obtain ⟨hpne, hplo, hphi⟩ := hcur.2.2 p hp1
          exact ⟨hpne, le_trans (min_le_left _ _) hplo,
            le_trans hphi (le_max_left _ _)⟩
        · obtain ⟨hpne, hplo, hphi⟩ := hnxt.2.2 p hp2
          exact ⟨hpne, le_trans (min_le_right _ _) hplo,
            le_trans hphi (le_max_right _ _)⟩
    · rw [if_neg hov]
      have hlt : cur.hi < nxt.lo := by
        have h1 : cur.lo ≤ nxt.lo := hcn nxt (List.mem_cons_self _ _)
        have h2 : cur.lo ≤ cur.hi := hcur.1
        have h3 : nxt.lo ≤ nxt.hi := hnxt.1
        rw [overlapsB, decide_eq_true_eq] at hov
        omega
      rw [List.pairwise_cons]
      constructor
      · intro b hb
        exact lt_of_lt_of_le hlt (sweepGo_lo_bound nxt rest hsort.1 hsort.2 b hb)
      · exact ih nxt hnxt (fun x hx => hxs x (List.mem_cons_of_mem _ hx))
          hsort.1 hsort.2

theorem sweepGo_all_singleton (cur : OverlapAcc) (xs : List OverlapAcc)
    (hp : (cur :: xs).Pairwise
      (fun a b => overlapsB a.lo a.hi b.lo b.hi = false)) :
    sweepGo cur xs = cur :: xs := by
  induction xs generalizing cur with
  | nil => rw [sweepGo]
  | cons nxt rest ih =>
    rw [List.pairwise_cons] at hp
    rw [sweepGo, if_neg ?_]
    · rw [ih nxt hp.2]
    · rw [hp.1 nxt (List.mem_cons_self _ _)]
      exact Bool.false_ne_true

theorem get_all_overlaps_wf_sep (parts : List (List Nat))
    (hne : ∀ p ∈ parts, p ≠ []) :
    (∀ c ∈ get_all_overlaps parts, AccWF c)
    ∧ (get_all_overlaps parts).Pairwise (fun a b => a.hi < b.lo) := by
  have hwfall : ∀ x ∈ List.insertionSort
      (fun a b : OverlapAcc => a.lo ≤ b.lo) (parts.map accOf), AccWF x := by
    intro x hx
    have hx2 : x ∈ parts.map accOf := (List.perm_insertionSort _ _).mem_iff.mp hx
    rcases List.mem_map.mp hx2 with ⟨p, hp, rfl⟩
    exact accOf_wf (hne p hp)
  have hsorted : List.Sorted (fun a b : OverlapAcc => a.lo ≤ b.lo)
      (List.insertionSort (fun a b : OverlapAcc => a.lo ≤ b.lo)
        (parts.map accOf)) :=
    List.sorted_insertionSort _ _
  cases hs : List.insertionSort (fun a b : OverlapAcc => a.lo ≤ b.lo)
      (parts.map accOf) with
  | nil =>
    have hga : get_all_overlaps parts = [] := by rw [get_all_overlaps, hs]
    rw [hga]
    exact ⟨fun c hc => absurd hc (List.not_mem_nil c), List.Pairwise.nil⟩
  | cons x rest =>
    have hga : get_all_overlaps parts = sweepGo x rest := by
      rw [get_all_overlaps, hs]
    rw [hs] at hwfall hsorted
    rw [List.sorted_cons] at hsorted
    rw [hga]
    refine ⟨?_, ?_⟩
    · exact sweepGo_wf x rest (hwfall x (List.mem_cons_self _ _))
        (fun y hy => hwfall y (List.mem_cons_of_mem _ hy))
    · exact sweepGo_separated x rest (hwfall x (List.mem_cons_self _ _))
        (fun y hy => hwfall y (List.mem_cons_of_mem _ hy)) hsorted.1 hsorted.2

theorem merged_part_bounds {comp : OverlapAcc} (hwf : AccWF comp) :
    sortDedup comp.parts.flatten ≠ []
    ∧ comp.lo ≤ part_lo (sortDedup comp.parts.flatten)
    ∧ part_hi (sortDedup comp.parts.flatten) ≤ comp.hi := by
  obtain ⟨hlohi, hne, hmem⟩ := hwf
  obtain ⟨q, hq⟩ := List.exists_mem_of_ne_nil _ hne
  obtain ⟨hqne, -, -⟩ := hmem q hq
  obtain ⟨x0, hx0⟩ := List.exists_mem_of_ne_nil _ hqne
  have hx0f : x0 ∈ comp.parts.flatten := List.mem_flatten.mpr ⟨q, hq, hx0⟩
  have hsd_ne : sortDedup comp.parts.flatten ≠ [] :=
    List.ne_nil_of_mem (mem_sortDedup.mpr hx0f)
  refine ⟨hsd_ne, ?_, ?_⟩
  · have hmin_mem : list_min (sortDedup comp.parts.flatten)
        ∈ comp.parts.flatten := mem_sortDedup.mp (list_min_mem hsd_ne)
    rcases List.mem_flatten.mp hmin_mem with ⟨p, hp, hxp⟩
    obtain ⟨-, hplo, -⟩ := hmem p hp
    exact le_trans hplo (part_lo_le_ts hxp)
  · have hmax_mem : list_max (sortDedup comp.parts.flatten)
        ∈ comp.parts.flatten := mem_sortDedup.mp (list_max_mem hsd_ne)
    rcases List.mem_flatten.mp hmax_mem with ⟨p, hp, hxp⟩
    obtain ⟨-, -, hphi⟩ := hmem p hp
    exact le_trans (ts_le_part_hi hxp) hphi

theorem split_single_chunk {α : Type} (l : List α) (mrc : Nat) (hm : 1 ≤ mrc)
    (hl : l ≠ []) (hlen : l.length ≤ mrc) : split l mrc = [l] := by
  have h1 : 1 ≤ l.length := List.length_pos.mpr hl
  have hc : (l.length + mrc - 1) / mrc = 1 :=
    Nat.div_eq_of_lt_le (by omega) (by omega)
  rw [split, hc, split_roughly_equal]
  have hr1 : List.range 1 = [0] := rfl
  rw [hr1, List.map_cons, List.map_nil]
  simp [Nat.div_one, Nat.mod_one, List.take_length]

theorem flatten_map_singleton {α β : Type} (l : List α) (f : α → β) :
    (l.map (fun x => [f x])).flatten = l.map f := by
  induction l with
  | nil => rfl
  | cons a t ih => simp [ih]

theorem get_all_overlaps_of_separated (ps : List (List Nat))
    (hsorted : (ps.map accOf).Pairwise (fun a b : OverlapAcc => a.lo ≤ b.lo))
    (hsep : (ps.map accOf).Pairwise
      (fun a b => overlapsB a.lo a.hi b.lo b.hi = false)) :
    get_all_overlaps ps = ps.map accOf := by
  have hins : List.insertionSort (fun a b : OverlapAcc => a.lo ≤ b.lo)
      (ps.map accOf) = ps.map accOf :=
    List.Sorted.insertionSort_eq hsorted
  rw [get_all_overlaps, hins]
  cases hps : ps.map accOf with
  | nil => rfl
  | cons x rest =>
    rw [hps] at hsep
    exact sweepGo_all_singleton x rest hsep

theorem repaired_part_spec {comp : OverlapAcc} (hwf : AccWF comp) :
    repaired_part comp ≠ []
    ∧ comp.lo ≤ part_lo (repaired_part comp)
    ∧ part_hi (repaired_part comp) ≤ comp.hi := by
  rw [repaired_part]
  by_cases h2 : 2 ≤ comp.parts.length
  · rw [if_pos h2]
    exact merged_part_bounds hwf
  · rw [if_neg h2]
    have h1 : comp.parts.length = 1 := by
      have hpos : 0 < comp.parts.length := List.length_pos.mpr hwf.2.1
      omega
    rcases List.length_eq_one.mp h1 with ⟨p, hp⟩
    have hmem := hwf.2.2 p (by rw [hp]; exact List.mem_singleton_self p)
    rw [hp]
    exact hmem

theorem payload_eq_singleton {mrc : Nat} {comp : OverlapAcc} (hwf : AccWF comp)
    (hmax : 1 ≤ mrc)
    (hfit : 2 ≤ comp.parts.length →
      (sortDedup comp.parts.flatten).length ≤ mrc) :
    (if 2 ≤ comp.parts.length
     then split (sortDedup comp.parts.flatten) mrc else comp.parts)
      = [repaired_part comp] := by
  rw [repaired_part]
  by_cases h2 : 2 ≤ comp.parts.length
  · rw [if_pos h2, if_pos h2]
    exact split_single_chunk _ _ hmax (merged_part_bounds hwf).1 (hfit h2)
  · rw [if_neg h2, if_neg h2]
    have h1 : comp.parts.length = 1 := by
      have hpos : 0 < comp.parts.length := List.length_pos.mpr hwf.2.1
      omega
    rcases List.length_eq_one.mp h1 with ⟨p, hp⟩
    rw [hp]
    rfl

/-- C5, amended: after a successful repair in which every overlap component's
consolidated table fits in one output file (its distinct-row count is at most
`PARQUET_FILE_MAX_DECISION_RECORDS`, so `split` emits a single chunk), the
live keys have pairwise non-overlapping `(min_ts, max_ts)` intervals, a
second run (which scans the listed keys) finds no overlaps, and re-running
repair leaves the store unchanged.  Without the fits-in-one-file proviso a
component can be re-split at a shared timestamp second and its chunks'
closed key intervals overlap again (see the counterexample). -/
theorem repair_converges_c5 (mrc : Nat) (parts : List (List Nat))
    (hmax : 1 ≤ mrc) (hne : ∀ p ∈ parts, p ≠ [])
    (hfit : ∀ comp ∈ get_all_overlaps parts, 2 ≤ comp.parts.length →
      (sortDedup comp.parts.flatten).length ≤ mrc) :
    List.Pairwise (fun p q =>
        overlapsB (part_lo p) (part_hi p) (part_lo q) (part_hi q) = false)
      (repair_overlapping_keys mrc parts)
    ∧ hasOverlaps (repair_overlapping_keys mrc parts) = false
    ∧ repair_overlapping_keys mrc (repair_overlapping_keys mrc parts)
        = repair_overlapping_keys mrc parts := by
  by_cases hlen : parts.length ≤ 1
  · have hrep : repair_overlapping_keys mrc parts = parts := by
      rw [repair_overlapping_keys, if_pos hlen]
    rw [hrep]
    refine ⟨?_, ?_, hrep⟩
    · cases parts with
      | nil => exact List.Pairwise.nil
      | cons p t =>
        cases t with
        | nil => exact List.pairwise_singleton _ _
        | cons q s =>
          rw [List.length_cons, List.length_cons] at hlen
          omega
    · rw [hasOverlaps, if_pos hlen]
  · obtain ⟨hwfc, hsepc⟩ := get_all_overlaps_wf_sep parts hne
    have hrep : repair_overlapping_keys mrc parts
        = (get_all_overlaps parts).map repaired_part := by
      rw [repair_overlapping_keys, if_neg hlen,
        List.map_congr_left (fun comp hc =>
          payload_eq_singleton (hwfc comp hc) hmax (hfit comp hc))]
      exact flatten_map_singleton _ _
    have hbounds : ∀ comp ∈ get_all_overlaps parts, repaired_part comp ≠ []
        ∧ comp.lo ≤ part_lo (repaired_part comp)
        ∧ part_hi (repaired_part comp) ≤ comp.hi :=
      fun comp hc => repaired_part_spec (hwfc comp hc)
    have hpair : ((get_all_overlaps parts).map repaired_part).Pairwise
        (fun p q => overlapsB (part_lo p) (part_hi p) (part_lo q) (part_hi q)
          = false) := by
      rw [List.pairwise_map]
      refine List.Pairwise.imp_of_mem ?_ hsepc
      intro a b ha hb hab
      obtain ⟨hga, hgalo, hgahi⟩ := hbounds a ha
      obtain ⟨hgb, hgblo, hgbhi⟩ := hbounds b hb
      have h1 : part_lo (repaired_part a) ≤ part_hi (repaired_part a) :=
        part_lo_le_part_hi hga
      have h2 : part_lo (repaired_part b) ≤ part_hi (repaired_part b) :=
        part_lo_le_part_hi hgb
      rw [overlapsB, decide_eq_false_iff_not]
      omega
    have hsorted' : (((get_all_overlaps parts).map repaired_part).map
        accOf).Pairwise (fun a b : OverlapAcc => a.lo ≤ b.lo) := by
      rw [List.pairwise_map, List.pairwise_map]
      refine List.Pairwise.imp_of_mem ?_ hsepc
      intro a b ha hb hab
      obtain ⟨hga, hgalo, hgahi⟩ := hbounds a ha
      obtain ⟨hgb, hgblo, hgbhi⟩ := hbounds b hb
      have h1 : part_lo (repaired_part a) ≤ part_hi (repaired_part a) :=
        part_lo_le_part_hi hga
      show part_lo (repaired_part a) ≤ part_lo (repaired_part b)
      omega
    have hsep' : (((get_all_overlaps parts).map repaired_part).map
        accOf).Pairwise (fun a b => overlapsB a.lo a.hi b.lo b.hi = false) := by
      rw [List.pairwise_map]
      exact hpair
    rw [hrep]
    refine ⟨hpair, ?_, ?_⟩
    · rw [hasOverlaps]
      by_cases hl1 : ((get_all_overlaps parts).map repaired_part).length ≤ 1
      · rw [if_pos hl1]
      · rw [if_neg hl1, get_all_overlaps_of_separated _ hsorted' hsep',
          List.any_eq_false]
        intro x hx
        rcases List.mem_map.mp hx with ⟨p, hp, rfl⟩
        simp [accOf]
    · by_cases hl1 : ((get_all_overlaps parts).map repaired_part).length ≤ 1
      · rw [repair_overlapping_keys, if_pos hl1]
      · rw [repair_overlapping_keys, if_neg hl1,
          get_all_overlaps_of_separated _ hsorted' hsep', List.map_map]
        have hsing : ∀ q ∈ (get_all_overlaps parts).map repaired_part,
            ((fun comp => if 2 ≤ comp.parts.length
              then split (sortDedup comp.parts.flatten) mrc
              else comp.parts) ∘ accOf) q = [q] := by
          intro q hq
          show (if 2 ≤ (accOf q).parts.length
            then split (sortDedup (accOf q).parts.flatten) mrc
            else (accOf q).parts) = [q]
          rw [accOf]
          norm_num
        rw [List.map_congr_left hsing]
        have hfl := flatten_map_singleton
          ((get_all_overlaps parts).map repaired_part) id
        simpa using hfl

/-- Concrete instance of the amended repair claim: two one-row partitions
with distinct timestamps whose merged component fits in one file. -/
theorem repair_converges_c5_witness :
    List.Pairwise (fun p q =>
        overlapsB (part_lo p) (part_hi p) (part_lo q) (part_hi q) = false)
      (repair_overlapping_keys 2 [[0], [1]])
    ∧ hasOverlaps (repair_overlapping_keys 2 [[0], [1]]) = false
    ∧ repair_overlapping_keys 2 (repair_overlapping_keys 2 [[0], [1]])
        = repair_overlapping_keys 2 [[0], [1]] :=
  repair_converges_c5 2 [[0], [1]] (by decide) (by decide) (by decide)

/-- C6: a read I/O failure on the attached partition is non-fatal: the key
attachment is dropped, no delete of any key is ever issued (the unreadable
object survives every phase, including cleanup), processing continues with
only the incoming records, and a new sibling partition is written which
overlaps the old key's decision-id range `[lo, hi]` whenever some incoming
record's decision id lies in that range. -/
theorem read_failure_non_fatal_c6
    (read : String → ReadResult) (mrc : Nat) (p : RDP) (key : String)
    (hkey : p.s3_key = some key) (hread : read key = ReadResult.ioFailure)
    (hmax : 1 ≤ mrc) (r0 : RDR) (hr0 : r0 ∈ p.df) (lo hi : Nat)
    (hlo : lo ≤ r0.decision_id) (hhi : r0.decision_id ≤ hi) :
    (process read mrc p).raised = none
    ∧ (process read mrc p).finalKey = none
    ∧ (process read mrc p).effects = saveChunks mrc (merge p.df)
    ∧ (∀ k, Effect.deleteKey k ∉ (process read mrc p).effects)
    ∧ ∃ chunk, Effect.putChunk chunk ∈ (process read mrc p).effects
        ∧ ∃ r ∈ chunk, r.decision_id = r0.decision_id
          ∧ lo ≤ r.decision_id ∧ r.decision_id ≤ hi := by
  have hp : process read mrc p = ⟨saveChunks mrc (merge p.df), none, none⟩ := by
    simp only [process, hkey, hread]
  rw [hp]
  refine ⟨rfl, rfl, rfl, ?_, ?_⟩
  · intro k
    simp [saveChunks]
  · have hd : r0.decision_id ∈ sortDedup (p.df.map (·.decision_id)) :=
      mem_sortDedup.mpr (List.mem_map.mpr ⟨r0, hr0, rfl⟩)
    have hrow : agg_group r0.decision_id
        (p.df.filter (fun r => decide (r.decision_id = r0.decision_id)))
        ∈ merge p.df := by
      rw [merge]
      exact List.mem_map.mpr ⟨r0.decision_id, hd, rfl⟩
    have hne : merge p.df ≠ [] := List.ne_nil_of_mem hrow
    have hflat := flatten_split (merge p.df) mrc hmax hne
    have hrow2 : agg_group r0.decision_id
        (p.df.filter (fun r => decide (r.decision_id = r0.decision_id)))
        ∈ (split (merge p.df) mrc).flatten := by
      rw [hflat]
      exact hrow
    rcases List.mem_flatten.mp hrow2 with ⟨chunk, hchunk, hin⟩
    refine ⟨chunk, ?_, ?_⟩
    · exact List.mem_map.mpr ⟨chunk, hchunk, rfl⟩
    · exact ⟨_, hin, rfl, hlo, hhi⟩

theorem read_failure_non_fatal_c6_witness :
    (process (fun _ => ReadResult.ioFailure) 1
        ⟨"m", [⟨5, none, none, none, none, none, none, none, none⟩],
          some "k1"⟩).raised = none
    ∧ (process (fun _ => ReadResult.ioFailure) 1
        ⟨"m", [⟨5, none, none, none, none, none, none, none, none⟩],
          some "k1"⟩).finalKey = none
    ∧ (process (fun _ => ReadResult.ioFailure) 1
        ⟨"m", [⟨5, none, none, none, none, none, none, none, none⟩],
          some "k1"⟩).effects
      = saveChunks 1 (merge [⟨5, none, none, none, none, none, none, none, none⟩])
    ∧ (∀ k, Effect.deleteKey k ∉ (process (fun _ => ReadResult.ioFailure) 1
        ⟨"m", [⟨5, none, none, none, none, none, none, none, none⟩],
          some "k1"⟩).effects)
    ∧ ∃ chunk, Effect.putChunk chunk ∈ (process (fun _ => ReadResult.ioFailure) 1
        ⟨"m", [⟨5, none, none, none, none, none, none, none, none⟩],
          some "k1"⟩).effects
        ∧ ∃ r ∈ chunk,
          r.decision_id = (RDR.mk 5 none none none none none none none none).decision_id
          ∧ 3 ≤ r.decision_id ∧ r.decision_id ≤ 9 :=
  read_failure_non_fatal_c6 (fun _ => ReadResult.ioFailure) 1
    ⟨"m", [⟨5, none, none, none, none, none, none, none, none⟩], some "k1"⟩
    "k1" rfl rfl (by decide)
    ⟨5, none, none, none, none, none, none, none, none⟩
    (List.mem_singleton_self _) 3 9 (by decide) (by decide)

/-- C7: when the loaded partition file contains rows whose decision_id fails
validation, `process` writes the file's contents under
`unrecoverable/<original_key>`, deletes the original key, raises a hard
error, and writes no merged output (no chunk put).  Processing is
per-partition: the i-th result of mapping `process` over a batch of RDPs is
a function of the i-th RDP alone, so this failure leaves every other RDP's
processing unchanged. -/
theorem invalid_partition_quarantined_c7
    (read : String → ReadResult) (mrc : Nat) (p : RDP) (key : String)
    (rows : List RDR) (hkey : p.s3_key = some key)
    (hread : read key = ReadResult.ok rows)
    (hbad : rows.all (fun r => is_valid_message_id r.decision_id) = false)
    (ps : List RDP) (i : Nat) :
    (process read mrc p).effects
      = [Effect.putUnrecoverable ("unrecoverable/" ++ key) rows,
         Effect.deleteKey key]
    ∧ (process read mrc p).raised.isSome = true
    ∧ (∀ chunk, Effect.putChunk chunk ∉ (process read mrc p).effects)
    ∧ (ps.map (process read mrc))[i]? = (ps[i]?).map (process read mrc) := by
  have hp : process read mrc p
      = ⟨[Effect.putUnrecoverable ("unrecoverable/" ++ key) rows,
          Effect.deleteKey key],
         some "ValueError: invalid records found", some key⟩ := by
    simp only [process, hkey, hread, hbad]
    rfl
  rw [hp]
  refine ⟨rfl, rfl, ?_, ?_⟩
  · intro chunk
    simp
  · exact List.getElem?_map _ ps i

theorem invalid_partition_quarantined_c7_witness :
    (process (fun _ => ReadResult.ok
        [⟨2 ^ 160, none, none, none, none, none, none, none, none⟩]) 10
        ⟨"m", [], some "k2"⟩).effects
      = [Effect.putUnrecoverable ("unrecoverable/" ++ "k2")
          [⟨2 ^ 160, none, none, none, none, none, none, none, none⟩],
         Effect.deleteKey "k2"]
    ∧ (process (fun _ => ReadResult.ok
        [⟨2 ^ 160, none, none, none, none, none, none, none, none⟩]) 10
        ⟨"m", [], some "k2"⟩).raised.isSome = true
    ∧ (∀ chunk, Effect.putChunk chunk ∉ (process (fun _ => ReadResult.ok
        [⟨2 ^ 160, none, none, none, none, none, none, none, none⟩]) 10
        ⟨"m", [], some "k2"⟩).effects)
    ∧ (([⟨"n", [], none⟩] : List RDP).map (process (fun _ => ReadResult.ok
        [⟨2 ^ 160, none, none, none, none, none, none, none, none⟩]) 10))[0]?
      = (([⟨"n", [], none⟩] : List RDP)[0]?).map (process (fun _ => ReadResult.ok
        [⟨2 ^ 160, none, none, none, none, none, none, none, none⟩]) 10) :=
  invalid_partition_quarantined_c7
    (fun _ => ReadResult.ok
      [⟨2 ^ 160, none, none, none, none, none, none, none, none⟩]) 10
    ⟨"m", [], some "k2"⟩ "k2"
    [⟨2 ^ 160, none, none, none, none, none, none, none, none⟩]
    rfl rfl (by decide) [⟨"n", [], none⟩] 0

/-- C10: parse accepts a firehose record with any string type tag, provided
message_id, timestamp and model are valid: for a tag that is neither
"decision" nor "reward", no decision- or reward-specific field is read or
validated (the record parses no matter what those fields hold), and
`to_rewarded_decision_dict` of the resulting record is the empty dict — no
decision_id, no rewards. -/
theorem unknown_type_accepted_c10 (j : List (String × Json))
    (mid ts t mo : String)
    (h1 : j.lookup "message_id" = some (Json.str mid))
    (h2 : is_valid_ksuid mid = true)
    (h3 : j.lookup "timestamp" = some (Json.str ts))
    (h4 : is_valid_timestamp_str ts = true)
    (h5 : j.lookup "type" = some (Json.str t))
    (h6 : j.lookup "model" = some (Json.str mo))
    (h7 : is_valid_model_name mo = true)
    (h8 : t ≠ "decision") (h9 : t ≠ "reward") :
    ∃ r : FirehoseRecord, parse_firehose_record j = Except.ok r
      ∧ r.type = t ∧ to_rewarded_decision_dict r = [] := by
  have h8b : (t == "decision") = false := beq_eq_false_iff_ne.mpr h8
  have h9b : (t == "reward") = false := beq_eq_false_iff_ne.mpr h9
  refine ⟨⟨mid, ts, t, mo, none, none, none, none, none, none, none⟩, ?_, rfl, ?_⟩
  · simp only [parse_firehose_record, h1, h3, h5, h6, h2, h4, h7, h8b, h9b,
      if_true, Bool.false_eq_true, if_false]
  · simp only [to_rewarded_decision_dict, h8b, h9b, Bool.false_eq_true,
      if_false]

theorem unknown_type_accepted_c10_witness :
    ∃ r : FirehoseRecord,
      parse_firehose_record
        [("message_id", Json.str "0o5Fs0EELR0fUjHjbCnEtdUwQe3"),
         ("timestamp", Json.str "2023-01-01T00:00:00Z"),
         ("type", Json.str "event"),
         ("model", Json.str "songs-1"),
         ("count", Json.bool true)]
        = Except.ok r
      ∧ r.type = "event" ∧ to_rewarded_decision_dict r = [] :=
  unknown_type_accepted_c10
    [("message_id", Json.str "0o5Fs0EELR0fUjHjbCnEtdUwQe3"),
     ("timestamp", Json.str "2023-01-01T00:00:00Z"),
     ("type", Json.str "event"),
     ("model", Json.str "songs-1"),
     ("count", Json.bool true)]
    "0o5Fs0EELR0fUjHjbCnEtdUwQe3" "2023-01-01T00:00:00Z" "event" "songs-1"
    rfl (by decide) rfl (by decide) rfl rfl (by decide)
    (by decide) (by decide)
